import Mathlib

/-!
Shallow embedding of `vcf2cytosure.py` (structural-variant VCF to CytoSure
CGH converter) and proofs about its interval algebra, probe geometry,
variant admission filter, event extractor and coverage aggregation.

Conventions of the embedding:
* Python `int` is modelled as `Int`; Python floats produced by true division
  are modelled exactly over `ℚ` (idealized real arithmetic); Python `int()`
  truncation toward zero is `pyInt`.
* Python `//` on integers (floor division) is `Int.fdiv`.
* Fallible code (exceptions: `IndexError`, `ValueError`, `AssertionError`,
  `ZeroDivisionError`) is modelled with `Option`/explicit crash markers.
* The global configuration table `CONTIG_LENGTHS` (imported from the absent
  `constants` module) is passed as an explicit `contigs` association-list
  parameter; no claim depends on its concrete values.
* A variant's `INFO` dict is modelled by the typed fields the program reads
  (`END`, `SVTYPE`, `CHR2`) plus an association list for numeric fields such
  as the configurable frequency tag.  Python truthiness of
  `variant.INFO.get('END')` (false for both a missing key and the value `0`)
  is modelled explicitly.
-/

/-- Kind of sweep event in `merge_intervals` (source lines 204-220); the
source uses the strings `'START'` and `'STOP'`, which compare
lexicographically with `'START' < 'STOP'`. -/
inductive EvKind
  | START
  | STOP
deriving DecidableEq

/-- Python tuple order on the `(position, kind)` sweep events of
`merge_intervals`: positions first, ties broken by `'START' < 'STOP'`. -/
def evLE (a b : Int × EvKind) : Prop :=
  a.1 < b.1 ∨ (a.1 = b.1 ∧ (a.2 = EvKind.START ∨ b.2 = EvKind.STOP))

instance evLE.instDecRel : DecidableRel evLE := fun a b => by
  unfold evLE
  infer_instance

instance evLE.instIsTotal : IsTotal (Int × EvKind) evLE := by
  constructor
  rintro ⟨pa, ka⟩ ⟨pb, kb⟩
  rcases lt_trichotomy pa pb with h | h | h
  · exact Or.inl (Or.inl h)
  · subst h
    cases ka <;> cases kb
    · exact Or.inl (Or.inr ⟨rfl, Or.inl rfl⟩)
    · exact Or.inl (Or.inr ⟨rfl, Or.inl rfl⟩)
    · exact Or.inr (Or.inr ⟨rfl, Or.inl rfl⟩)
    · exact Or.inl (Or.inr ⟨rfl, Or.inr rfl⟩)
  · exact Or.inr (Or.inl h)

instance evLE.instIsTrans : IsTrans (Int × EvKind) evLE := by
  constructor
  rintro ⟨pa, ka⟩ ⟨pb, kb⟩ ⟨pc, kc⟩ hab hbc
  rcases hab with h | ⟨h, kab⟩ <;> rcases hbc with h' | ⟨h', kbc⟩
  · exact Or.inl (by omega)
  · exact Or.inl (by omega)
  · exact Or.inl (by omega)
  · refine Or.inr ⟨by omega, ?_⟩
    rcases kab with k | k
    · exact Or.inl k
    · rcases kbc with k' | k'
      · exact absurd (k.symm.trans k') (by decide)
      · exact Or.inr k'

instance evLE.instIsAntisymm : IsAntisymm (Int × EvKind) evLE := by
  constructor
  rintro ⟨pa, ka⟩ ⟨pb, kb⟩ hab hba
  have hp : pa = pb := by
    rcases hab with h | ⟨h, -⟩ <;> rcases hba with h' | ⟨h', -⟩ <;> omega
  subst hp
  have hk : ka = kb := by
    rcases hab with h | ⟨-, kab⟩
    · exact absurd h (lt_irrefl _)
    rcases hba with h' | ⟨-, kba⟩
    · exact absurd h' (lt_irrefl _)
    cases ka <;> cases kb <;> simp_all
  rw [hk]

/-- The sweep loop of `merge_intervals` (source lines 209-220): `active`
counts currently open intervals, `start` holds the start of the current run
(initialised to `0` in the source), and a merged interval is emitted each
time `active` returns to zero. -/
def sweep : List (Int × EvKind) → Int → Int → List (Int × Int)
  | [], _, _ => []
  | (pos, EvKind.START) :: rest, active, start =>
      if active = 0 then sweep rest (active + 1) pos
      else sweep rest (active + 1) start
  | (pos, EvKind.STOP) :: rest, active, start =>
      if active - 1 = 0 then (start, pos) :: sweep rest (active - 1) start
      else sweep rest (active - 1) start

/-- `merge_intervals` (source lines 204-220): build one `START` event per
interval low end and one `STOP` event per high end, sort them by the Python
tuple order, then sweep.  Python's stable `list.sort` is modelled by
insertion sort with the same total order (ties arise only between identical
events, so any sorted permutation coincides). -/
def intervalEvents (intervals : List (Int × Int)) : List (Int × EvKind) :=
  intervals.map (fun coord => (coord.1, EvKind.START)) ++
    intervals.map (fun coord => (coord.2, EvKind.STOP))

/-- `merge_intervals`, assembled from `intervalEvents` and `sweep`. -/
def merge_intervals (intervals : List (Int × Int)) : List (Int × Int) :=
  sweep (List.insertionSort evLE (intervalEvents intervals)) 0 0

/-- Loop body of `complement_intervals` (source lines 228-234), carrying the
running `prev_end` (initially `0`). -/
def complementGo (chromosome_length : Int) : Int → List (Int × Int) → List (Int × Int)
  | prev_end, [] =>
      if prev_end ≠ chromosome_length then [(prev_end, chromosome_length)] else []
  | prev_end, (start, stop) :: rest =>
      (if prev_end ≠ start then [(prev_end, start)] else []) ++
        complementGo chromosome_length stop rest

/-- `complement_intervals` (source lines 223-234). -/
def complement_intervals (intervals : List (Int × Int)) (chromosome_length : Int) :
    List (Int × Int) :=
  complementGo chromosome_length 0 intervals

/-- Membership of an integer point in a half-open `[start, stop)` interval
of the pipeline's interval data model. -/
def memI (x : Int) (p : Int × Int) : Prop :=
  p.1 ≤ x ∧ x < p.2

instance memI.instDec (x : Int) (p : Int × Int) : Decidable (memI x p) := by
  unfold memI
  infer_instance

/-- A point is covered by a collection of half-open intervals. -/
def covers (l : List (Int × Int)) (x : Int) : Prop :=
  ∃ p ∈ l, memI x p

instance covers.instDec (l : List (Int × Int)) (x : Int) : Decidable (covers l x) := by
  unfold covers
  infer_instance

/-- A list of intervals is separated: each interval is well formed
(`start ≤ stop`) and each interval ends strictly before the next starts. -/
def Separated (l : List (Int × Int)) : Prop :=
  (∀ p ∈ l, p.1 ≤ p.2) ∧ l.Chain' (fun p q => p.2 < q.1)

/-- Number of sweep events of kind `k` in a list. -/
def countKind (k : EvKind) (E : List (Int × EvKind)) : Nat :=
  E.countP (fun ev => ev.2 == k)

/-- Number of sweep events of kind `k` at positions `≤ x`. -/
def countLe (k : EvKind) (x : Int) (E : List (Int × EvKind)) : Nat :=
  E.countP (fun ev => ev.2 == k && decide (ev.1 ≤ x))

/-- The sweep counter invariant: starting from `active = a`, the counter
stays nonnegative throughout the event list and returns to `0` at its
end. -/
def balancedFrom : Int → List (Int × EvKind) → Prop
  | a, [] => a = 0
  | a, (_, EvKind.START) :: rest => balancedFrom (a + 1) rest
  | a, (_, EvKind.STOP) :: rest => 1 ≤ a ∧ balancedFrom (a - 1) rest

/-- The sweep-event list of a separated interval list written in its
naturally sorted order: start and stop of the first interval, then the
events of the rest. -/
def chainEvents : List (Int × Int) → List (Int × EvKind)
  | [] => []
  | (s, e) :: rest => (s, EvKind.START) :: (e, EvKind.STOP) :: chainEvents rest

/-- Python `int()` applied to a rational value: truncation toward zero,
i.e. the floor for nonnegative values and the ceiling (`-⌊-q⌋`) for
negative ones. -/
def pyInt (q : ℚ) : Int :=
  if 0 ≤ q then q.floor else -(-q).floor

/-- The spacing recomputed by `spaced_probes` (source lines 174-176):
`l / max(l // probe_spacing, 2)` with true (float) division, modelled
exactly over `ℚ`. -/
def spacingOf (start stop probe_spacing : Int) : ℚ :=
  ((stop - start : Int) : ℚ) / ((max ((stop - start).fdiv probe_spacing) 2 : Int) : ℚ)

/-- Position reached by the `spaced_probes` loop after `i` iterations
(source lines 177-182): `start + int(i * spacing)`; iteration `0` yields
`start` itself. -/
def spaced_pos (start stop probe_spacing : Int) (i : Nat) : Int :=
  start + pyInt ((i : ℚ) * spacingOf start stop probe_spacing)

/-- The `spaced_probes` generator terminates: some loop iteration produces a
position strictly beyond `stop`, falsifying the `pos <= end` guard. -/
def SpacedTerminates (start stop probe_spacing : Int) : Prop :=
  ∃ i : Nat, stop < spaced_pos start stop probe_spacing i

/-- The finite sequence yielded by `spaced_probes` when it terminates: all
positions up to (excluding) the first one that exceeds `stop`. -/
def spaced_probes (start stop probe_spacing : Int)
    (h : SpacedTerminates start stop probe_spacing) : List Int :=
  (List.range (Nat.find h)).map (spaced_pos start stop probe_spacing)

/-- The integer list produced by Python `range(a, b)`. -/
def intRange (a b : Int) : List Int :=
  (List.range (b - a).toNat).map (fun n => a + (n : Int))

/-- `triangle_probes` (source lines 185-192): `(position, height)` pairs
drawing an upward triangle; `pos_step = (width-1) // (steps-1)`,
`height_step = height / ((steps-1) // 2)`, and the loop runs over
`range(-(steps//2), steps//2 + 1)`. -/
def triangle_probes (center : Int) (height : ℚ) (width steps : Int) : List (Int × ℚ) :=
  let pos_step : Int := (width - 1).fdiv (steps - 1)
  let height_step : ℚ := height / (((steps - 1).fdiv 2 : Int) : ℚ)
  (intRange (-(steps.fdiv 2)) (steps.fdiv 2 + 1)).map
    (fun i => (center + i * pos_step, height - height_step * ((|i| : Int) : ℚ) + 1 / 10))

/-- A parsed coverage record (source lines 248-255); the Python attribute
`end` is called `stop` here because `end` is a Lean keyword. -/
structure CoverageRecord where
  chrom : String
  start : Int
  stop : Int
  coverage : ℚ
deriving DecidableEq

/-- `compute_mean_coverage` over already-parsed records (source lines
270-279): `total / n`.  The `none` result models the unguarded
`ZeroDivisionError` Python raises when there are no records. -/
def compute_mean_coverage (records : List CoverageRecord) : Option ℚ :=
  if records.length = 0 then none
  else some ((records.map (fun r => r.coverage)).sum / (records.length : ℚ))

/-- The qualifying-record filter of `add_coverage_probes` (source line 340):
keep only records whose contig is a key of the contig-length table. -/
def coverages_on_known_contigs (contigs : List (String × Int))
    (records : List CoverageRecord) : List CoverageRecord :=
  records.filter (fun r => (contigs.lookup r.chrom).isSome)

/-- The mean-coverage computation of `add_coverage_probes` (source lines
340-341): `sum(r.coverage for r in coverages) / len(coverages)` over the
qualifying records.  The `none` result models the unguarded
`ZeroDivisionError` raised when `len(coverages)` is `0`. -/
def add_coverage_mean (contigs : List (String × Int))
    (records : List CoverageRecord) : Option ℚ :=
  let coverages := coverages_on_known_contigs contigs records
  if coverages.length = 0 then none
  else some ((coverages.map (fun r => r.coverage)).sum / (coverages.length : ℚ))

/-- Tag of a sweep event in `subtract_intervals` (source lines 320-322); the
source uses the strings `'rec'`, `'istart'`, `'iend'`, which compare
lexicographically as `'iend' < 'istart' < 'rec'`. -/
inductive SubTag
  | iend
  | istart
  | rec0
deriving DecidableEq

/-- Rank realising the lexicographic order `'iend' < 'istart' < 'rec'` of
the tag strings used by `subtract_intervals`. -/
def subRank : SubTag → Nat
  | SubTag.iend => 0
  | SubTag.istart => 1
  | SubTag.rec0 => 2

/-- Python tuple order on the `(position, tag, payload)` events of
`subtract_intervals`: position first, then tag string.  The payload is only
compared by Python on a full `(position, tag)` tie between two records,
where CPython raises `TypeError`; such inputs are outside every statement
below, and the model keeps the pre-sort order there (stable sort). -/
def subLE (a b : Int × SubTag × Option CoverageRecord) : Prop :=
  a.1 < b.1 ∨ (a.1 = b.1 ∧ subRank a.2.1 ≤ subRank b.2.1)

instance subLE.instDecRel : DecidableRel subLE := fun a b => by
  unfold subLE
  infer_instance

/-- The sweep loop of `subtract_intervals` (source lines 324-331), carrying
the `inside` flag (initially `False`). -/
def subtractGo : List (Int × SubTag × Option CoverageRecord) → Bool → List CoverageRecord
  | [], _ => []
  | (_, SubTag.istart, _) :: rest, _ => subtractGo rest true
  | (_, SubTag.iend, _) :: rest, _ => subtractGo rest false
  | (_, SubTag.rec0, payload) :: rest, inside =>
      if inside then subtractGo rest inside
      else
        match payload with
        | some r => r :: subtractGo rest inside
        | none => subtractGo rest inside

/-- `subtract_intervals` (source lines 316-331): keep the records whose
start position falls outside every given interval, decided by a sweep over
the sorted record-start and interval-boundary events. -/
def subtract_intervals (records : List CoverageRecord)
    (intervals : List (Int × Int)) : List CoverageRecord :=
  subtractGo
    (List.insertionSort subLE
      (records.map (fun r => (r.start, SubTag.rec0, some r)) ++
        intervals.map (fun i => (i.1, SubTag.istart, (none : Option CoverageRecord))) ++
        intervals.map (fun i => (i.2, SubTag.iend, (none : Option CoverageRecord)))))
    false

/-- The typed view of the `INFO` dict of a variant record: the fields the
program reads, plus an association list holding numeric annotation fields
(in particular the configurable frequency tag). -/
structure PyInfo where
  END : Option Int
  SVTYPE : Option String
  CHR2 : Option String
  numeric : List (String × ℚ)
deriving DecidableEq

/-- A raw variant record as exposed by the VCF reader: contig name, 0-based
start, reference allele, alternate alleles, and the `INFO` mapping. -/
structure PyVariant where
  CHROM : String
  start : Int
  REF : String
  ALT : List String
  INFO : PyInfo
deriving DecidableEq

/-- Python truthiness of `variant.INFO.get('END')`: false when the key is
absent and when its value is `0`. -/
def truthyEND (i : PyInfo) : Bool :=
  match i.END with
  | some e => e != 0
  | none => false

/-- A normalized structural-variant event (source line 21); the Python
field `end` is called `endPos` here because `end` is a Lean keyword. -/
structure Event where
  chrom : String
  start : Int
  endPos : Option Int
  type : Option String
  info : PyInfo
deriving DecidableEq

/-- Outcome of processing one raw variant inside the `events` generator:
silently skipped, crashed (the `assert len(variant.REF) == 1` on line 42
failing aborts the whole iteration), or an `Event` is yielded. -/
inductive EvStep
  | skip
  | crash
  | emit (e : Event)

/-- One iteration of the `events` generator body (source lines 26-47):
skip multi-allelic records and unknown contigs; if `END` is truthy, swap
the coordinate pair whenever `start <= end` (lines 36-39) and yield an
interval event, else yield a point event with no `end`. -/
def eventStep (contigs : List (String × Int)) (v : PyVariant) : EvStep :=
  if v.ALT.length ≠ 1 then EvStep.skip
  else if (contigs.lookup v.CHROM).isNone then EvStep.skip
  else
    match v.INFO.END with
    | some e =>
      if e ≠ 0 then
        if v.start ≤ e then
          if v.REF.length = 1 then
            EvStep.emit ⟨v.CHROM, e, some v.start, v.INFO.SVTYPE, v.INFO⟩
          else EvStep.crash
        else
          if v.REF.length = 1 then
            EvStep.emit ⟨v.CHROM, v.start, some e, v.INFO.SVTYPE, v.INFO⟩
          else EvStep.crash
      else EvStep.emit ⟨v.CHROM, v.start, none, v.INFO.SVTYPE, v.INFO⟩
    | none => EvStep.emit ⟨v.CHROM, v.start, none, v.INFO.SVTYPE, v.INFO⟩

/-- The `events` generator (source lines 23-47) over a list of raw
records; a crash aborts the iteration, yielding nothing further. -/
def events (contigs : List (String × Int)) : List PyVariant → List Event
  | [] => []
  | v :: rest =>
    match eventStep contigs v with
    | EvStep.skip => events contigs rest
    | EvStep.crash => []
    | EvStep.emit e => e :: events contigs rest

/-- Python `str.split(sep)` for a single-character separator, over the
character list of the string: split at every occurrence of the separator,
keeping empty pieces; the result always has one more piece than there are
separator occurrences, so it is never the empty list. -/
def splitOnChar (sep : Char) : List Char → List (List Char)
  | [] => [[]]
  | c :: rest =>
    match splitOnChar sep rest with
    | [] => [[]]
    | piece :: pieces =>
        if c = sep then [] :: piece :: pieces else (c :: piece) :: pieces

/-- Accumulator loop of `pyIntOfChars`: consume decimal digits, failing on
any other character. -/
def parseDigitsAux : List Char → Nat → Option Nat
  | [], acc => some acc
  | c :: rest, acc =>
      if c.isDigit then parseDigitsAux rest (acc * 10 + (c.toNat - '0'.toNat))
      else none

/-- Python `int()` applied to a string: an optional sign followed by at
least one decimal digit; `none` models the `ValueError` raised on any other
shape (the model covers the plain numerals that occur in breakend ALT
alleles). -/
def pyIntOfChars : List Char → Option Int
  | [] => none
  | '-' :: rest =>
      if rest.isEmpty then none
      else (parseDigitsAux rest 0).map (fun n => -(n : Int))
  | '+' :: rest =>
      if rest.isEmpty then none
      else (parseDigitsAux rest 0).map (fun n => (n : Int))
  | s => (parseDigitsAux s 0).map (fun n => (n : Int))

/-- Partner position parsed from a breakend ALT allele (source line 370):
`int(alt.split(':')[1].split(']')[0].split('[')[0])`; `none` models the
`IndexError`/`ValueError` Python raises when the shape is wrong. -/
def bnd_pos_of (alt : String) : Option Int :=
  match (splitOnChar ':' alt.toList).get? 1 with
  | none => none
  | some s =>
      pyIntOfChars ((splitOnChar '[' ((splitOnChar ']' s).headD [])).headD [])

/-- Partner contig parsed from a breakend ALT allele (source line 371):
`alt.split(':')[0].split(']')[-1].split('[')[-1]`; `split` never returns an
empty list, so the indexing never fails. -/
def bnd_chrom_of (alt : String) : String :=
  String.mk
    ((splitOnChar '['
        ((splitOnChar ']' ((splitOnChar ':' alt.toList).headD [])).getLastD [])).getLastD [])

/-- The discarded first parse of the breakend branch (source line 368):
`variant.ALT[0][2:-1].split(':')` must unpack into exactly two values or
Python raises `ValueError` before the real parse runs. -/
def altSliceParts (alt : String) : List (List Char) :=
  splitOnChar ':' ((alt.toList.drop 2).dropLast)

/-- The frequency check at the end of `variant_filter` (source lines
381-383): pass unless the configured tag is present with a value strictly
above `max_frequency`. -/
def frequencyPass (v : PyVariant) (max_frequency : ℚ) (frequency_tag : String) : Bool :=
  match v.INFO.numeric.lookup frequency_tag with
  | some frequency => !(frequency > max_frequency)
  | none => true

/-- Per-record admission decision of `variant_filter` (source lines
358-385): `some true` means the record is yielded, `some false` that it is
rejected (`continue`), `none` that the breakend ALT parsing raised.  The
`TRA` branch (lines 376-379) only binds locals and falls through to the
frequency check, as does any other record outside the first two branches. -/
def variantDecision (v : PyVariant) (min_size : Int) (max_frequency : ℚ)
    (frequency_tag : String) : Option Bool :=
  if truthyEND v.INFO ∧ v.INFO.SVTYPE ≠ some "TRA" then
    match v.INFO.END with
    | some e =>
        if |e - v.start| ≤ min_size then some false
        else some (frequencyPass v max_frequency frequency_tag)
    | none => some (frequencyPass v max_frequency frequency_tag)
  else if v.INFO.SVTYPE = some "BND" then
    match v.ALT.head? with
    | none => none
    | some alt =>
        if (altSliceParts alt).length ≠ 2 then none
        else
          match bnd_pos_of alt with
          | none => none
          | some bnd_pos =>
              if bnd_chrom_of alt = v.CHROM ∧ |bnd_pos - v.start| < min_size then
                some false
              else some (frequencyPass v max_frequency frequency_tag)
  else some (frequencyPass v max_frequency frequency_tag)

/-- The `variant_filter` generator (source lines 356-385) over a list of
records; a parse crash aborts the iteration. -/
def variant_filter (variants : List PyVariant) (min_size : Int) (max_frequency : ℚ)
    (frequency_tag : String) : List PyVariant :=
  match variants with
  | [] => []
  | v :: rest =>
    match variantDecision v min_size max_frequency frequency_tag with
    | none => []
    | some true => v :: variant_filter rest min_size max_frequency frequency_tag
    | some false => variant_filter rest min_size max_frequency frequency_tag

/-! ## Theorems -/

/-- Claim C4: the claim asks for a named `EmptyInputError` when the mean
coverage is computed over zero qualifying records; the source instead
evaluates `sum(...) / len(...)` with `len = 0` (line 341), an unguarded
`ZeroDivisionError`, modelled by the `none` result: evaluating the code
at a failing input (a single coverage record on a contig absent from the
contig-length table) yields the crash marker. -/
theorem C4_zero_qualifying_records_crash :
    add_coverage_mean [("1", 248956422)] [⟨"GL000207", 0, 1000, 36⟩] = none := rfl

/-- Helper for claim C1: any interval event emitted by one step of the
extractor has its `end` coordinate at most its `start` coordinate (the
source swaps the pair exactly when `start <= end`, lines 36-39). -/
theorem eventStep_emit_end_le {contigs : List (String × Int)} {v : PyVariant}
    {ev : Event} (h : eventStep contigs v = EvStep.emit ev) {en : Int}
    (he : ev.endPos = some en) : en ≤ ev.start := by
  unfold eventStep at h
  split at h
  · exact EvStep.noConfusion h
  split at h
  · exact EvStep.noConfusion h
  split at h
  next e heq =>
    split at h
    next hne =>
      split at h
      next hswap =>
        split at h
        · injection h with h'
          subst h'
          simp only at he
          injection he with he'
          show en ≤ e
          omega
        · exact EvStep.noConfusion h
      next hswap =>
        split at h
        · injection h with h'
          subst h'
          simp only at he
          injection he with he'
          show en ≤ v.start
          omega
        · exact EvStep.noConfusion h
    next hne =>
      injection h with h'
      subst h'
      simp only at he
      exact Option.noConfusion he
  next heq =>
    injection h with h'
    subst h'
    simp only at he
    exact Option.noConfusion he

/-- Claim C1 (amended): for every interval `Event` yielded by the extractor
(an admitted record with a truthy `END`), the normalization swaps the pair
whenever `start <= END`, so the yielded `Event` satisfies `end ≤ start` —
not `start < end` as claimed. -/
theorem C1_interval_event_end_le_start (contigs : List (String × Int))
    (vs : List PyVariant) (ev : Event) (en : Int)
    (hmem : ev ∈ events contigs vs) (hend : ev.endPos = some en) :
    en ≤ ev.start := by
  induction vs with
  | nil => simp [events] at hmem
  | cons v rest ih =>
    rw [events] at hmem
    cases hstep : eventStep contigs v with
    | skip =>
      rw [hstep] at hmem
      exact ih hmem
    | crash =>
      rw [hstep] at hmem
      simp at hmem
    | emit e =>
      rw [hstep] at hmem
      rcases List.mem_cons.mp hmem with rfl | hmem'
      · exact eventStep_emit_end_le hstep hend
      · exact ih hmem'

/-- Claim C1, counterexample: a deletion record with `start = 100` and
`END = 200` is yielded as an `Event` with `start = 200`, `end = 100`,
falsifying `start < end`. -/
theorem C1_counterexample :
    ∃ ev ∈ events [("1", 249250621)]
        [⟨"1", 100, "N", ["<DEL>"], ⟨some 200, some "DEL", none, []⟩⟩],
      ∃ en, ev.endPos = some en ∧ ¬ ev.start < en := by
  refine ⟨⟨"1", 200, some 100, some "DEL", ⟨some 200, some "DEL", none, []⟩⟩,
    by decide, 100, by decide, by decide⟩

/-- Witness for claim C1's amended theorem at the concrete deletion record
above. -/
theorem C1_witness :
    (⟨"1", 200, some 100, some "DEL", ⟨some 200, some "DEL", none, []⟩⟩ : Event) ∈
      events [("1", 249250621)]
        [⟨"1", 100, "N", ["<DEL>"], ⟨some 200, some "DEL", none, []⟩⟩] ∧
    (100 : Int) ≤ 200 :=
  ⟨by decide, C1_interval_event_end_le_start [("1", 249250621)]
    [⟨"1", 100, "N", ["<DEL>"], ⟨some 200, some "DEL", none, []⟩⟩]
    ⟨"1", 200, some 100, some "DEL", ⟨some 200, some "DEL", none, []⟩⟩ 100
    (by decide) (by decide)⟩

/-- `pyInt` agrees with the floor on nonnegative arguments. -/
theorem pyInt_of_nonneg {q : ℚ} (h : 0 ≤ q) : pyInt q = ⌊q⌋ := by
  unfold pyInt
  rw [if_pos h]
  rfl

/-- `pyInt 0 = 0`. -/
theorem pyInt_zero : pyInt 0 = 0 := by
  rw [pyInt_of_nonneg le_rfl]
  exact Int.floor_zero

/-- Iteration `0` of the `spaced_probes` loop sits at `start`. -/
theorem spaced_pos_zero (start stop ps : Int) : spaced_pos start stop ps 0 = start := by
  simp [spaced_pos, pyInt_zero]

/-- The `spaced_probes` loop terminates whenever `start ≠ end`: for
`end < start` the guard fails immediately, and for `start < end` the
spacing is positive, so the position eventually passes `end`. -/
theorem spaced_terminates_of_ne (start stop ps : Int) (hne : start ≠ stop) :
    SpacedTerminates start stop ps := by
  rcases lt_or_gt_of_ne hne with hlt | hgt
  · have hl1 : (1 : Int) ≤ stop - start := by omega
    set M : Int := max ((stop - start).fdiv ps) 2 with hM
    have hm2 : (2 : Int) ≤ M := le_max_right _ _
    have hnn : (0 : Int) ≤ M * (stop - start + 1) := mul_nonneg (by omega) (by omega)
    refine ⟨(M * (stop - start + 1)).toNat, ?_⟩
    unfold spaced_pos
    have hcast : (((M * (stop - start + 1)).toNat : ℕ) : ℚ) =
        ((M : Int) : ℚ) * ((stop - start + 1 : Int) : ℚ) := by
      have h1 : ((M * (stop - start + 1)).toNat : Int) = M * (stop - start + 1) :=
        Int.toNat_of_nonneg hnn
      calc (((M * (stop - start + 1)).toNat : ℕ) : ℚ)
          = (((M * (stop - start + 1)).toNat : Int) : ℚ) := by push_cast; ring
        _ = ((M * (stop - start + 1) : Int) : ℚ) := by rw [h1]
        _ = ((M : Int) : ℚ) * ((stop - start + 1 : Int) : ℚ) := by push_cast; ring
    rw [hcast]
    unfold spacingOf
    rw [← hM]
    have hMq : ((M : Int) : ℚ) ≠ 0 := by
      exact_mod_cast (by omega : M ≠ 0)
    have hkey : ((M : Int) : ℚ) * ((stop - start + 1 : Int) : ℚ) *
        (((stop - start : Int) : ℚ) / ((M : Int) : ℚ)) =
        ((stop - start : Int) : ℚ) * ((stop - start + 1 : Int) : ℚ) := by
      field_simp
      ring
    rw [hkey]
    have hx : (0 : ℚ) ≤ ((stop - start : Int) : ℚ) * ((stop - start + 1 : Int) : ℚ) := by
      have h1 : (0 : ℚ) ≤ ((stop - start : Int) : ℚ) := by
        exact_mod_cast (by omega : (0 : Int) ≤ stop - start)
      have h2 : (0 : ℚ) ≤ ((stop - start + 1 : Int) : ℚ) := by
        exact_mod_cast (by omega : (0 : Int) ≤ stop - start + 1)
      exact mul_nonneg h1 h2
    rw [pyInt_of_nonneg hx]
    have hint : ((stop - start : Int) : ℚ) * ((stop - start + 1 : Int) : ℚ) =
        (((stop - start) * (stop - start + 1) : Int) : ℚ) := by
      push_cast
      ring
    rw [hint, Int.floor_intCast]
    nlinarith
  · refine ⟨0, ?_⟩
    rw [spaced_pos_zero]
    omega

/-- The first three loop positions of `spaced_probes` never pass `end`
when `start < end`: the spacing is at most half the interval length. -/
theorem spaced_pos_le_of_le_two (start stop ps : Int) (hlt : start < stop)
    {i : ℕ} (hi : i ≤ 2) : spaced_pos start stop ps i ≤ stop := by
  have hl1 : (1 : Int) ≤ stop - start := by omega
  have hm2 : (2 : Int) ≤ max ((stop - start).fdiv ps) 2 := le_max_right _ _
  have hx : (0 : ℚ) ≤ ((stop - start : Int) : ℚ) := by
    exact_mod_cast (by omega : (0 : Int) ≤ stop - start)
  have hM0 : (0 : ℚ) < ((max ((stop - start).fdiv ps) 2 : Int) : ℚ) := by
    exact_mod_cast (by omega : (0 : Int) < max ((stop - start).fdiv ps) 2)
  have hsp : (0 : ℚ) ≤ spacingOf start stop ps := by
    unfold spacingOf
    exact div_nonneg hx (le_of_lt hM0)
  have hqn : (0 : ℚ) ≤ (i : ℚ) * spacingOf start stop ps :=
    mul_nonneg (by positivity) hsp
  have hle : (i : ℚ) * spacingOf start stop ps ≤ ((stop - start : Int) : ℚ) := by
    unfold spacingOf
    rw [mul_div_assoc', div_le_iff₀ hM0]
    have hi2 : ((i : ℕ) : ℚ) ≤ 2 := by exact_mod_cast hi
    have hm2' : (2 : ℚ) ≤ ((max ((stop - start).fdiv ps) 2 : Int) : ℚ) := by
      exact_mod_cast hm2
    nlinarith
  unfold spaced_pos
  rw [pyInt_of_nonneg hqn]
  have hfle : ⌊(i : ℚ) * spacingOf start stop ps⌋ ≤ stop - start := by
    have := Int.floor_le_floor hle
    rwa [Int.floor_intCast] at this
  omega

/-- Claim C3 (amended): `spaced_probes` terminates for every integer
`start`, `end` with `start ≠ end` and positive spacing. -/
theorem C3_spaced_probes_terminate (start stop ps : Int) (hps : 0 < ps)
    (hne : start ≠ stop) : SpacedTerminates start stop ps :=
  spaced_terminates_of_ne start stop ps hne

/-- Claim C3, counterexample: at `start = end = 0` (any positive spacing,
here `5000`) the recomputed spacing is `0 / 2 = 0`, the loop position never
advances past the `pos <= end` guard, and the generator never terminates. -/
theorem C3_counterexample : ¬ SpacedTerminates 0 0 5000 := by
  rintro ⟨i, hi⟩
  have hz : spacingOf 0 0 5000 = 0 := by
    simp [spacingOf]
  rw [spaced_pos, hz, mul_zero, pyInt_zero] at hi
  omega

/-- Witness for claim C3's amended theorem at `start = 0`, `end = 10`,
spacing `5000`. -/
theorem C3_witness :
    (0 : Int) < 5000 ∧ (0 : Int) ≠ 10 ∧ SpacedTerminates 0 10 5000 :=
  ⟨by decide, by decide, C3_spaced_probes_terminate 0 10 5000 (by decide) (by decide)⟩

/-- Claim C9: for `end > start` and positive spacing, `spaced_probes`
yields `start` first, yields at least `3` positions, and every yielded
position is `≤ end` (the loop guard admits a position before yielding
it). -/
theorem C9_spaced_probes_shape (start stop ps : Int) (hlt : start < stop)
    (hps : 0 < ps) :
    ∃ h : SpacedTerminates start stop ps,
      (spaced_probes start stop ps h).head? = some start ∧
      3 ≤ (spaced_probes start stop ps h).length ∧
      ∀ p ∈ spaced_probes start stop ps h, p ≤ stop := by
  refine ⟨spaced_terminates_of_ne start stop ps (by omega), ?_, ?_, ?_⟩
  · have hne : Nat.find (spaced_terminates_of_ne start stop ps (by omega : start ≠ stop)) ≠ 0 := by
      intro h0
      have hspec := Nat.find_spec (spaced_terminates_of_ne start stop ps (by omega : start ≠ stop))
      rw [h0, spaced_pos_zero] at hspec
      omega
    rcases Nat.exists_eq_succ_of_ne_zero hne with ⟨k, hk⟩
    rw [spaced_probes, hk, List.range_succ_eq_map]
    simp [spaced_pos_zero]
  · have h3 : 3 ≤ Nat.find (spaced_terminates_of_ne start stop ps (by omega : start ≠ stop)) := by
      by_contra hc
      push_neg at hc
      have hspec := Nat.find_spec (spaced_terminates_of_ne start stop ps (by omega : start ≠ stop))
      have hle := spaced_pos_le_of_le_two start stop ps hlt
        (i := Nat.find (spaced_terminates_of_ne start stop ps (by omega : start ≠ stop)))
        (by omega)
      omega
    simpa [spaced_probes] using h3
  · intro p hp
    simp only [spaced_probes, List.mem_map, List.mem_range] at hp
    rcases hp with ⟨i, hi, rfl⟩
    have := Nat.find_min (spaced_terminates_of_ne start stop ps (by omega : start ≠ stop)) hi
    omega

/-- Witness for claim C9 at `start = 0`, `end = 10`, spacing `5000`. -/
theorem C9_witness :
    (0 : Int) < 10 ∧ (0 : Int) < 5000 ∧
    ∃ h : SpacedTerminates 0 10 5000,
      (spaced_probes 0 10 5000 h).head? = some 0 ∧
      3 ≤ (spaced_probes 0 10 5000 h).length ∧
      ∀ p ∈ spaced_probes 0 10 5000 h, p ≤ 10 :=
  ⟨by decide, by decide, C9_spaced_probes_shape 0 10 5000 (by decide) (by decide)⟩

/-- Claim C10: `subtract_intervals` resolves position ties through the
lexicographic tag order `'iend' < 'istart' < 'rec'`, so a record starting
exactly at an exclusion interval's end is yielded, a record starting
exactly at its start is dropped, and an exclusion interval `(a, b)` acts as
the half-open `[a, b)` on record starts. -/
theorem C10_subtract_intervals_halfopen (a b : Int) (r : CoverageRecord)
    (hab : a < b) :
    (r.start = b → subtract_intervals [r] [(a, b)] = [r]) ∧
    (r.start = a → subtract_intervals [r] [(a, b)] = []) ∧
    subtract_intervals [r] [(a, b)] =
      (if a ≤ r.start ∧ r.start < b then [] else [r]) := by
  have hyz : subLE (a, SubTag.istart, (none : Option CoverageRecord))
      (b, SubTag.iend, (none : Option CoverageRecord)) := Or.inl hab
  have key : subtract_intervals [r] [(a, b)] =
      (if a ≤ r.start ∧ r.start < b then [] else [r]) := by
    unfold subtract_intervals
    simp only [List.map_cons, List.map_nil, List.cons_append, List.nil_append,
      List.append_nil, List.insertionSort, List.orderedInsert]
    rw [if_pos hyz]
    simp only [List.orderedInsert]
    by_cases h1 : r.start < a
    · have hp1 : subLE (r.start, SubTag.rec0, some r)
          (a, SubTag.istart, (none : Option CoverageRecord)) := Or.inl h1
      rw [if_pos hp1]
      rw [if_neg (by omega : ¬(a ≤ r.start ∧ r.start < b))]
      rfl
    · have hn1 : ¬ subLE (r.start, SubTag.rec0, some r)
          (a, SubTag.istart, (none : Option CoverageRecord)) := by
        intro hc
        rcases hc with hc | ⟨hc, hr⟩
        · exact h1 hc
        · simp [subRank] at hr
      rw [if_neg hn1]
      by_cases h2 : r.start < b
      · have hp2 : subLE (r.start, SubTag.rec0, some r)
            (b, SubTag.iend, (none : Option CoverageRecord)) := Or.inl h2
        rw [if_pos hp2]
        rw [if_pos (by omega : a ≤ r.start ∧ r.start < b)]
        rfl
      · have hn2 : ¬ subLE (r.start, SubTag.rec0, some r)
            (b, SubTag.iend, (none : Option CoverageRecord)) := by
          intro hc
          rcases hc with hc | ⟨hc, hr⟩
          · exact h2 hc
          · simp [subRank] at hr
        rw [if_neg hn2]
        rw [if_neg (by omega : ¬(a ≤ r.start ∧ r.start < b))]
        rfl
  refine ⟨?_, ?_, key⟩
  · intro hrb
    rw [key, if_neg (by omega)]
  · intro hra
    rw [key, if_pos (by omega)]

/-- Witness for claim C10 at the exclusion interval `(10, 20)` and a record
starting at `20`. -/
theorem C10_witness :
    (10 : Int) < 20 ∧
    ((⟨"1", 20, 30, 7⟩ : CoverageRecord).start = 20 →
        subtract_intervals [⟨"1", 20, 30, 7⟩] [(10, 20)] = [⟨"1", 20, 30, 7⟩]) ∧
    ((⟨"1", 20, 30, 7⟩ : CoverageRecord).start = 10 →
        subtract_intervals [⟨"1", 20, 30, 7⟩] [(10, 20)] = []) ∧
    subtract_intervals [⟨"1", 20, 30, 7⟩] [(10, 20)] =
      (if 10 ≤ (⟨"1", 20, 30, 7⟩ : CoverageRecord).start ∧
          (⟨"1", 20, 30, 7⟩ : CoverageRecord).start < 20 then []
        else [⟨"1", 20, 30, 7⟩]) :=
  ⟨by decide, C10_subtract_intervals_halfopen 10 20 ⟨"1", 20, 30, 7⟩ (by decide)⟩

/-- Claim C6: `triangle_probes(center, 2.5, 5001, 15)` yields exactly 15
pairs, positions stepping by `floor(5000/14) = 357` (hence strictly
increasing) and symmetric about `center`, the centre point at height
`height + 0.1` and the two endpoints (positions `center ± 7 * 357`) at
height `0.1`, following the stated linear formula. -/
theorem C6_triangle_probes_shape (center : Int) :
    (triangle_probes center (5 / 2) 5001 15).length = 15 ∧
    List.Chain' (fun p q => q.1 = p.1 + 357) (triangle_probes center (5 / 2) 5001 15) ∧
    ((triangle_probes center (5 / 2) 5001 15).map Prod.fst).reverse =
      (triangle_probes center (5 / 2) 5001 15).map (fun p => 2 * center - p.1) ∧
    (triangle_probes center (5 / 2) 5001 15).get? 7 = some (center, 5 / 2 + 1 / 10) ∧
    (triangle_probes center (5 / 2) 5001 15).get? 0 = some (center - 7 * 357, 1 / 10) ∧
    (triangle_probes center (5 / 2) 5001 15).get? 14 = some (center + 7 * 357, 1 / 10) := by
  have hrange : intRange (-((15 : Int).fdiv 2)) ((15 : Int).fdiv 2 + 1) =
      [-7, -6, -5, -4, -3, -2, -1, 0, 1, 2, 3, 4, 5, 6, 7] := by decide
  have hps : ((5001 : Int) - 1).fdiv (15 - 1) = 357 := by decide
  have hhs : ((15 : Int) - 1).fdiv 2 = 7 := by decide
  have hdef : triangle_probes center (5 / 2) 5001 15 =
      ([-7, -6, -5, -4, -3, -2, -1, 0, 1, 2, 3, 4, 5, 6, 7] : List Int).map
        (fun i => (center + i * 357,
          5 / 2 - 5 / 2 / (((7 : Int)) : ℚ) * ((|i| : Int) : ℚ) + 1 / 10)) := by
    simp only [triangle_probes]
    rw [hps, hhs, hrange]
  rw [hdef]
  refine ⟨by simp, ?_, ?_, ?_, ?_, ?_⟩
  · rw [List.chain'_map]
    simp only [List.chain'_cons, List.chain'_singleton, and_true]
    norm_num
    omega
  · simp only [List.map_map, List.map_cons, List.map_nil, Function.comp]
    simp only [List.reverse_cons, List.reverse_nil, List.nil_append, List.cons_append,
      List.append_nil, List.append_assoc]
    norm_num
    omega
  · simp only [List.get?_map]
    norm_num
  · simp only [List.get?_map]
    norm_num
    omega
  · simp only [List.get?_map]
    norm_num

/-- Claim C7: for a record with a present (truthy, i.e. nonzero) `END` and
`SVTYPE` other than `TRA`, the admission filter rejects by size exactly
when `|END - start| ≤ min_size` — the boundary case is rejected, and the
size rejection is independent of the frequency check; when the size test
passes, admission reduces to the frequency check alone. -/
theorem C7_size_filter (v : PyVariant) (e min_size : Int) (max_frequency : ℚ)
    (frequency_tag : String)
    (hE : v.INFO.END = some e) (hE0 : e ≠ 0)
    (hTRA : v.INFO.SVTYPE ≠ some "TRA") :
    (|e - v.start| ≤ min_size →
      variantDecision v min_size max_frequency frequency_tag = some false) ∧
    (min_size < |e - v.start| →
      (variantDecision v min_size max_frequency frequency_tag = some true ↔
        frequencyPass v max_frequency frequency_tag = true)) := by
  have htr : truthyEND v.INFO = true := by
    rw [truthyEND, hE]
    simp [hE0]
  unfold variantDecision
  rw [if_pos ⟨htr, hTRA⟩]
  simp only [hE]
  constructor
  · intro hsize
    rw [if_pos hsize]
  · intro hsize
    rw [if_neg (by omega : ¬ |e - v.start| ≤ min_size)]
    constructor
    · intro h
      injection h
    · intro h
      rw [h]

/-- Witness for claim C7 at the spec's end-to-end deletion scenario:
`start = 100`, `END = 5200` (size `5100 > 5000` passes the size stage) with
no frequency annotation. -/
theorem C7_witness :
    (⟨"1", 100, "N", ["<DEL>"], ⟨some 5200, some "DEL", none, []⟩⟩ :
        PyVariant).INFO.END = some 5200 ∧ (5200 : Int) ≠ 0 ∧
    (⟨"1", 100, "N", ["<DEL>"], ⟨some 5200, some "DEL", none, []⟩⟩ :
        PyVariant).INFO.SVTYPE ≠ some "TRA" ∧
    ((|5200 - (⟨"1", 100, "N", ["<DEL>"], ⟨some 5200, some "DEL", none, []⟩⟩ :
          PyVariant).start| ≤ 5000 →
        variantDecision ⟨"1", 100, "N", ["<DEL>"], ⟨some 5200, some "DEL", none, []⟩⟩
          5000 (1 / 100) "FRQ" = some false) ∧
      (5000 < |5200 - (⟨"1", 100, "N", ["<DEL>"], ⟨some 5200, some "DEL", none, []⟩⟩ :
          PyVariant).start| →
        (variantDecision ⟨"1", 100, "N", ["<DEL>"], ⟨some 5200, some "DEL", none, []⟩⟩
            5000 (1 / 100) "FRQ" = some true ↔
          frequencyPass ⟨"1", 100, "N", ["<DEL>"], ⟨some 5200, some "DEL", none, []⟩⟩
            (1 / 100) "FRQ" = true))) :=
  ⟨by decide, by decide, by decide,
    C7_size_filter ⟨"1", 100, "N", ["<DEL>"], ⟨some 5200, some "DEL", none, []⟩⟩
      5200 5000 (1 / 100) "FRQ" (by decide) (by decide) (by decide)⟩

/-- Claim C8, counterexample: a breakend record that also carries a truthy
`END` takes the size branch (line 361), so its ALT bracket notation is
never consulted: with `END = 100000` the size test passes and the record is
admitted even though its partner (parsed as contig `1`, position `1100`) is
on the same contig within `min_size = 5000` of `start = 1000`, which the
claim says must be rejected. -/
theorem C8_counterexample :
    variantDecision ⟨"1", 1000, "N", ["N[1:1100["], ⟨some 100000, some "BND", none, []⟩⟩
        5000 (1 / 100) "FRQ" = some true ∧
    bnd_chrom_of "N[1:1100[" = "1" ∧
    bnd_pos_of "N[1:1100[" = some 1100 ∧
    |(1100 : Int) - 1000| < 5000 :=
  ⟨by decide, by decide, by decide, by decide⟩

/-- Claim C8 (amended): for a breakend (`BND`) record *without* a truthy
`END` field, the filter parses the partner contig and position from the
first ALT allele's bracket notation and rejects exactly when the partner is
on the record's own contig strictly within `min_size` of `start`; otherwise
admission reduces to the frequency check. -/
theorem C8_bnd_filter (v : PyVariant) (alt : String) (bp min_size : Int)
    (max_frequency : ℚ) (frequency_tag : String)
    (hBND : v.INFO.SVTYPE = some "BND")
    (hEnd : truthyEND v.INFO = false)
    (hALT : v.ALT = [alt])
    (hslice : (altSliceParts alt).length = 2)
    (hpos : bnd_pos_of alt = some bp) :
    (bnd_chrom_of alt = v.CHROM ∧ |bp - v.start| < min_size →
      variantDecision v min_size max_frequency frequency_tag = some false) ∧
    (¬ (bnd_chrom_of alt = v.CHROM ∧ |bp - v.start| < min_size) →
      (variantDecision v min_size max_frequency frequency_tag = some true ↔
        frequencyPass v max_frequency frequency_tag = true)) := by
  have hnc : ¬ (truthyEND v.INFO = true ∧ v.INFO.SVTYPE ≠ some "TRA") := by
    simp [hEnd]
  unfold variantDecision
  rw [if_neg hnc, if_pos hBND]
  simp only [hALT, List.head?, hpos]
  rw [if_neg (by simp [hslice] : ¬ (altSliceParts alt).length ≠ 2)]
  constructor
  · intro hloc
    rw [if_pos hloc]
  · intro hloc
    rw [if_neg hloc]
    constructor
    · intro h
      injection h
    · intro h
      rw [h]

/-- Witness for claim C8's amended theorem: a breakend on contig `1` at
`start = 1000` with no `END`, ALT `N[1:1100[` (partner `1:1100`, 100 bp
away, strictly within the default 5000), min_size `5000`. -/
theorem C8_witness :
    (⟨"1", 1000, "N", ["N[1:1100["], ⟨none, some "BND", none, []⟩⟩ :
        PyVariant).INFO.SVTYPE = some "BND" ∧
    truthyEND (⟨"1", 1000, "N", ["N[1:1100["], ⟨none, some "BND", none, []⟩⟩ :
        PyVariant).INFO = false ∧
    (⟨"1", 1000, "N", ["N[1:1100["], ⟨none, some "BND", none, []⟩⟩ :
        PyVariant).ALT = ["N[1:1100["] ∧
    (altSliceParts "N[1:1100[").length = 2 ∧
    bnd_pos_of "N[1:1100[" = some 1100 ∧
    ((bnd_chrom_of "N[1:1100[" =
        (⟨"1", 1000, "N", ["N[1:1100["], ⟨none, some "BND", none, []⟩⟩ :
          PyVariant).CHROM ∧
      |1100 - (⟨"1", 1000, "N", ["N[1:1100["], ⟨none, some "BND", none, []⟩⟩ :
          PyVariant).start| < 5000 →
        variantDecision ⟨"1", 1000, "N", ["N[1:1100["], ⟨none, some "BND", none, []⟩⟩
          5000 (1 / 100) "FRQ" = some false) ∧
      (¬ (bnd_chrom_of "N[1:1100[" =
          (⟨"1", 1000, "N", ["N[1:1100["], ⟨none, some "BND", none, []⟩⟩ :
            PyVariant).CHROM ∧
        |1100 - (⟨"1", 1000, "N", ["N[1:1100["], ⟨none, some "BND", none, []⟩⟩ :
            PyVariant).start| < 5000) →
        (variantDecision ⟨"1", 1000, "N", ["N[1:1100["], ⟨none, some "BND", none, []⟩⟩
            5000 (1 / 100) "FRQ" = some true ↔
          frequencyPass ⟨"1", 1000, "N", ["N[1:1100["], ⟨none, some "BND", none, []⟩⟩
            (1 / 100) "FRQ" = true))) :=
  ⟨by decide, by decide, by decide, by decide, by decide,
    C8_bnd_filter ⟨"1", 1000, "N", ["N[1:1100["], ⟨none, some "BND", none, []⟩⟩
      "N[1:1100[" 1100 5000 (1 / 100) "FRQ"
      (by decide) (by decide) (by decide) (by decide) (by decide)⟩

/-- Counting events of a kind up to a position, cons step. -/
theorem countLe_cons (k k' : EvKind) (p x : Int) (E : List (Int × EvKind)) :
    countLe k x ((p, k') :: E) =
      countLe k x E + (if k' = k ∧ p ≤ x then 1 else 0) := by
  unfold countLe
  rw [List.countP_cons]
  congr 1
  by_cases h1 : k' = k <;> by_cases h2 : p ≤ x <;> simp [h1, h2]

/-- No events at positions `≤ x` when every event lies strictly beyond. -/
theorem countLe_eq_zero_of_lt {x : Int} {E : List (Int × EvKind)}
    (h : ∀ ev ∈ E, x < ev.1) (k : EvKind) : countLe k x E = 0 := by
  unfold countLe
  rw [List.countP_eq_zero]
  intro ev hev hb
  rw [Bool.and_eq_true, decide_eq_true_eq] at hb
  have := h ev hev
  omega

/-- In a sorted event list, the head position bounds every later one. -/
theorem sorted_head_pos_le {p : Int × EvKind} {E : List (Int × EvKind)}
    (hs : (p :: E).Sorted evLE) : ∀ q ∈ E, p.1 ≤ q.1 := by
  intro q hq
  rcases (List.sorted_cons.mp hs).1 q hq with h | ⟨h, -⟩ <;> omega

/-- Membership in the union of a cons of intervals. -/
theorem covers_cons {g : Int × Int} {l : List (Int × Int)} {x : Int} :
    covers (g :: l) x ↔ memI x g ∨ covers l x := by
  unfold covers
  simp

/-- The union of no intervals is empty. -/
theorem covers_nil {x : Int} : ¬ covers ([] : List (Int × Int)) x := by
  unfold covers
  simp

/-- Core sweep characterization: over a sorted, balanced event list the
union of the emitted intervals is exactly the set of points with more
`START`s than `STOP`s at positions `≤ x` (counting the `a` already-open
intervals, whose run started at `st`). -/
theorem sweep_mem (E : List (Int × EvKind)) :
    ∀ a st : Int, 0 ≤ a → E.Sorted evLE → balancedFrom a E →
    (0 < a → ∀ ev ∈ E, st ≤ ev.1) → ∀ x : Int,
    (covers (sweep E a st) x ↔
      ((countLe EvKind.STOP x E : Int) < (countLe EvKind.START x E : Int) + a ∧
        (a = 0 ∨ st ≤ x))) := by
  induction E with
  | nil =>
    intro a st ha hs hb hst x
    have ha0 : a = 0 := hb
    subst ha0
    simp only [sweep]
    simp [covers_nil, countLe]
  | cons pk E' ih =>
    obtain ⟨p, k⟩ := pk
    intro a st ha hs hb hst x
    have hs' : E'.Sorted evLE := (List.sorted_cons.mp hs).2
    have hhd : ∀ q ∈ E', p ≤ q.1 := sorted_head_pos_le hs
    cases k with
    | START =>
      have hb' : balancedFrom (a + 1) E' := hb
      have hcS : countLe EvKind.START x ((p, EvKind.START) :: E') =
          countLe EvKind.START x E' + (if p ≤ x then 1 else 0) := by
        rw [countLe_cons]
        by_cases hpx : p ≤ x <;> simp [hpx]
      have hcE : countLe EvKind.STOP x ((p, EvKind.START) :: E') =
          countLe EvKind.STOP x E' := by
        rw [countLe_cons]
        simp
      by_cases ha0 : a = 0
      · subst ha0
        rw [show sweep ((p, EvKind.START) :: E') 0 st = sweep E' 1 p from by
          simp [sweep]]
        rw [ih 1 p (by omega) hs' hb' (fun _ => hhd) x]
        by_cases hpx : p ≤ x
        · rw [if_pos hpx] at hcS
          omega
        · rw [if_neg hpx] at hcS
          have hz1 : countLe EvKind.START x E' = 0 :=
            countLe_eq_zero_of_lt (fun ev hev => by have := hhd ev hev; omega) _
          have hz2 : countLe EvKind.STOP x E' = 0 :=
            countLe_eq_zero_of_lt (fun ev hev => by have := hhd ev hev; omega) _
          omega
      · rw [show sweep ((p, EvKind.START) :: E') a st = sweep E' (a + 1) st from by
          simp only [sweep]
          rw [if_neg ha0]]
        rw [ih (a + 1) st (by omega) hs' hb'
          (fun _ ev hev => hst (by omega) ev (List.mem_cons_of_mem _ hev)) x]
        by_cases hpx : p ≤ x
        · rw [if_pos hpx] at hcS
          omega
        · rw [if_neg hpx] at hcS
          have hz1 : countLe EvKind.START x E' = 0 :=
            countLe_eq_zero_of_lt (fun ev hev => by have := hhd ev hev; omega) _
          have hz2 : countLe EvKind.STOP x E' = 0 :=
            countLe_eq_zero_of_lt (fun ev hev => by have := hhd ev hev; omega) _
          omega
    | STOP =>
      have hb1 : 1 ≤ a ∧ balancedFrom (a - 1) E' := hb
      have hcS : countLe EvKind.START x ((p, EvKind.STOP) :: E') =
          countLe EvKind.START x E' := by
        rw [countLe_cons]
        simp
      have hcE : countLe EvKind.STOP x ((p, EvKind.STOP) :: E') =
          countLe EvKind.STOP x E' + (if p ≤ x then 1 else 0) := by
        rw [countLe_cons]
        by_cases hpx : p ≤ x <;> simp [hpx]
      have hstp : st ≤ p :=
        hst (by omega) (p, EvKind.STOP) (List.mem_cons_self _ _)
      by_cases ha1 : a = 1
      · subst ha1
        rw [show sweep ((p, EvKind.STOP) :: E') 1 st = (st, p) :: sweep E' 0 st from by
          norm_num [sweep]]
        rw [covers_cons,
          ih 0 st (by omega) hs' hb1.2 (fun h => absurd h (by omega)) x]
        simp only [memI]
        by_cases hpx : p ≤ x
        · rw [if_pos hpx] at hcE
          omega
        · rw [if_neg hpx] at hcE
          have hz1 : countLe EvKind.START x E' = 0 :=
            countLe_eq_zero_of_lt (fun ev hev => by have := hhd ev hev; omega) _
          have hz2 : countLe EvKind.STOP x E' = 0 :=
            countLe_eq_zero_of_lt (fun ev hev => by have := hhd ev hev; omega) _
          omega
      · rw [show sweep ((p, EvKind.STOP) :: E') a st = sweep E' (a - 1) st from by
          simp only [sweep]
          rw [if_neg (by omega : ¬(a - 1 = 0))]]
        rw [ih (a - 1) st (by omega) hs' hb1.2
          (fun h ev hev => hst (by omega) ev (List.mem_cons_of_mem _ hev)) x]
        by_cases hpx : p ≤ x
        · rw [if_pos hpx] at hcE
          omega
        · rw [if_neg hpx] at hcE
          have hz1 : countLe EvKind.START x E' = 0 :=
            countLe_eq_zero_of_lt (fun ev hev => by have := hhd ev hev; omega) _
          have hz2 : countLe EvKind.STOP x E' = 0 :=
            countLe_eq_zero_of_lt (fun ev hev => by have := hhd ev hev; omega) _
          omega

/-- Structure of the sweep output over a sorted, balanced event list: every
emitted interval is well formed, starts at a `START` event position (or at
the pending run start `st`), stops at a `STOP` event position, and the
emitted intervals form a strictly separated chain. -/
theorem sweep_sep (E : List (Int × EvKind)) :
    ∀ a st : Int, 0 ≤ a → E.Sorted evLE → balancedFrom a E →
    (0 < a → ∀ ev ∈ E, st ≤ ev.1) →
    ((∀ g ∈ sweep E a st, g.1 ≤ g.2 ∧ (0 < a → st ≤ g.1) ∧
        ((g.1, EvKind.START) ∈ E ∨ (0 < a ∧ g.1 = st)) ∧
        (g.2, EvKind.STOP) ∈ E) ∧
      List.Chain' (fun g h => g.2 < h.1) (sweep E a st)) := by
  induction E with
  | nil =>
    intro a st ha hs hb hst
    simp [sweep]
  | cons pk E' ih =>
    obtain ⟨p, k⟩ := pk
    intro a st ha hs hb hst
    have hs' : E'.Sorted evLE := (List.sorted_cons.mp hs).2
    have hhd : ∀ q ∈ E', p ≤ q.1 := sorted_head_pos_le hs
    cases k with
    | START =>
      have hb' : balancedFrom (a + 1) E' := hb
      by_cases ha0 : a = 0
      · subst ha0
        rw [show sweep ((p, EvKind.START) :: E') 0 st = sweep E' 1 p from by
          simp [sweep]]
        obtain ⟨hmem', hchain'⟩ := ih 1 p (by omega) hs' hb' (fun _ => hhd)
        refine ⟨?_, hchain'⟩
        intro g hg
        obtain ⟨hge, hst', hmb, hstop⟩ := hmem' g hg
        refine ⟨hge, fun h => absurd h (by omega), ?_, List.mem_cons_of_mem _ hstop⟩
        rcases hmb with hmb | ⟨-, hgp⟩
        · exact Or.inl (List.mem_cons_of_mem _ hmb)
        · rw [hgp]
          exact Or.inl (List.mem_cons_self _ _)
      · rw [show sweep ((p, EvKind.START) :: E') a st = sweep E' (a + 1) st from by
          simp only [sweep]
          rw [if_neg ha0]]
        obtain ⟨hmem', hchain'⟩ := ih (a + 1) st (by omega) hs' hb'
          (fun _ ev hev => hst (by omega) ev (List.mem_cons_of_mem _ hev))
        refine ⟨?_, hchain'⟩
        intro g hg
        obtain ⟨hge, hst', hmb, hstop⟩ := hmem' g hg
        refine ⟨hge, fun _ => hst' (by omega), ?_, List.mem_cons_of_mem _ hstop⟩
        rcases hmb with hmb | ⟨-, hgp⟩
        · exact Or.inl (List.mem_cons_of_mem _ hmb)
        · exact Or.inr ⟨by omega, hgp⟩
    | STOP =>
      have hb1 : 1 ≤ a ∧ balancedFrom (a - 1) E' := hb
      have hstp : st ≤ p :=
        hst (by omega) (p, EvKind.STOP) (List.mem_cons_self _ _)
      by_cases ha1 : a = 1
      · subst ha1
        rw [show sweep ((p, EvKind.STOP) :: E') 1 st = (st, p) :: sweep E' 0 st from by
          norm_num [sweep]]
        obtain ⟨hmem', hchain'⟩ := ih 0 st (by omega) hs' hb1.2
          (fun h => absurd h (by omega))
        have hrest_start : ∀ g ∈ sweep E' 0 st, (g.1, EvKind.START) ∈ E' := by
          intro g hg
          rcases (hmem' g hg).2.2.1 with hmb | ⟨hfalse, -⟩
          · exact hmb
          · exact absurd hfalse (by omega)
        constructor
        · intro g hg
          rcases List.mem_cons.mp hg with rfl | hg'
          · exact ⟨hstp, fun _ => le_rfl, Or.inr ⟨by omega, rfl⟩,
              List.mem_cons_self _ _⟩
          · obtain ⟨hge, -, hmb, hstop⟩ := hmem' g hg'
            refine ⟨hge, ?_, ?_, List.mem_cons_of_mem _ hstop⟩
            · intro _
              have := hst (by omega) (g.1, EvKind.START)
                (List.mem_cons_of_mem _ (hrest_start g hg'))
              exact this
            · exact Or.inl (List.mem_cons_of_mem _ (hrest_start g hg'))
        · refine List.chain'_cons'.mpr ⟨?_, hchain'⟩
          intro b hb'
          have hbmem : b ∈ sweep E' 0 st := List.mem_of_mem_head? hb'
          have hbs : (b.1, EvKind.START) ∈ E' := hrest_start b hbmem
          have := (List.sorted_cons.mp hs).1 (b.1, EvKind.START) hbs
          rcases this with h | ⟨-, hk⟩
          · exact h
          · rcases hk with hk | hk <;> exact EvKind.noConfusion hk
      · rw [show sweep ((p, EvKind.STOP) :: E') a st = sweep E' (a - 1) st from by
          simp only [sweep]
          rw [if_neg (by omega : ¬(a - 1 = 0))]]
        obtain ⟨hmem', hchain'⟩ := ih (a - 1) st (by omega) hs' hb1.2
          (fun _ ev hev => hst (by omega) ev (List.mem_cons_of_mem _ hev))
        refine ⟨?_, hchain'⟩
        intro g hg
        obtain ⟨hge, hst', hmb, hstop⟩ := hmem' g hg
        refine ⟨hge, fun _ => hst' (by omega), ?_, List.mem_cons_of_mem _ hstop⟩
        rcases hmb with hmb | ⟨-, hgp⟩
        · exact Or.inl (List.mem_cons_of_mem _ hmb)
        · exact Or.inr ⟨by omega, hgp⟩

/-- Kind-count cons step. -/
theorem countKind_cons (k k' : EvKind) (p : Int) (E : List (Int × EvKind)) :
    countKind k ((p, k') :: E) = countKind k E + (if k' = k then 1 else 0) := by
  unfold countKind
  rw [List.countP_cons]
  by_cases h : k' = k <;> simp [h]

/-- `balancedFrom` holds as soon as every prefix keeps the counter
nonnegative and the full list returns it to zero. -/
theorem balanced_of_counts (E : List (Int × EvKind)) :
    ∀ a : Int, 0 ≤ a →
    (∀ P, P <+: E →
      (countKind EvKind.STOP P : Int) ≤ a + countKind EvKind.START P) →
    ((countKind EvKind.STOP E : Int) = a + countKind EvKind.START E) →
    balancedFrom a E := by
  induction E with
  | nil =>
    intro a ha hpre htot
    have h1 : countKind EvKind.STOP ([] : List (Int × EvKind)) = 0 := by simp [countKind]
    have h2 : countKind EvKind.START ([] : List (Int × EvKind)) = 0 := by simp [countKind]
    show a = 0
    omega
  | cons pk E' ih =>
    obtain ⟨p, k⟩ := pk
    intro a ha hpre htot
    cases k with
    | START =>
      have hcE : ∀ P : List (Int × EvKind),
          countKind EvKind.STOP ((p, EvKind.START) :: P) = countKind EvKind.STOP P := by
        intro P
        rw [countKind_cons]
        simp
      have hcS : ∀ P : List (Int × EvKind),
          countKind EvKind.START ((p, EvKind.START) :: P) =
            countKind EvKind.START P + 1 := by
        intro P
        rw [countKind_cons]
        simp
      show balancedFrom (a + 1) E'
      apply ih (a + 1) (by omega)
      · intro P hP
        have := hpre ((p, EvKind.START) :: P) (List.cons_prefix_cons.mpr ⟨rfl, hP⟩)
        rw [hcE, hcS] at this
        omega
      · have := htot
        rw [hcE, hcS] at this
        omega
    | STOP =>
      have hcE : ∀ P : List (Int × EvKind),
          countKind EvKind.STOP ((p, EvKind.STOP) :: P) =
            countKind EvKind.STOP P + 1 := by
        intro P
        rw [countKind_cons]
        simp
      have hcS : ∀ P : List (Int × EvKind),
          countKind EvKind.START ((p, EvKind.STOP) :: P) =
            countKind EvKind.START P := by
        intro P
        rw [countKind_cons]
        simp
      have hz1 : countKind EvKind.STOP ([] : List (Int × EvKind)) = 0 := by simp [countKind]
      have hz2 : countKind EvKind.START ([] : List (Int × EvKind)) = 0 := by simp [countKind]
      have ha1 : 1 ≤ a := by
        have := hpre [(p, EvKind.STOP)] (List.cons_prefix_cons.mpr ⟨rfl, List.nil_prefix⟩)
        rw [hcE, hcS] at this
        omega
      refine ⟨ha1, ?_⟩
      apply ih (a - 1) (by omega)
      · intro P hP
        have := hpre ((p, EvKind.STOP) :: P) (List.cons_prefix_cons.mpr ⟨rfl, hP⟩)
        rw [hcE, hcS] at this
        omega
      · have := htot
        rw [hcE, hcS] at this
        omega

/-- In a sorted event list whose `STOP`s never outnumber the `START`s at
any position threshold, the same holds for every prefix by element count:
the sweep counter never goes negative. -/
theorem prefix_counts_le (E : List (Int × EvKind)) (hs : E.Sorted evLE)
    (hpos : ∀ x : Int, countLe EvKind.STOP x E ≤ countLe EvKind.START x E) :
    ∀ P, P <+: E → countKind EvKind.STOP P ≤ countKind EvKind.START P := by
  intro P hP
  rcases List.eq_nil_or_concat P with rfl | ⟨P₀, last, rfl⟩
  · simp [countKind]
  · obtain ⟨p, k⟩ := last
    rw [List.concat_eq_append] at hP ⊢
    obtain ⟨R, hR⟩ := hP
    have hpw : List.Pairwise evLE ((P₀ ++ [(p, k)]) ++ R) := by
      rw [hR]
      exact hs
    rw [List.pairwise_append] at hpw
    have hpwP := hpw.1
    rw [List.pairwise_append] at hpwP
    have hP0 : ∀ q ∈ P₀, evLE q (p, k) := fun q hq => hpwP.2.2 q hq _ (by simp)
    have hcross : ∀ b ∈ R, evLE (p, k) b := fun b hb => hpw.2.2 (p, k) (by simp) b hb
    have hsub : List.Sublist (P₀ ++ [(p, k)]) E := by
      rw [← hR]
      exact List.sublist_append_left _ _
    cases k with
    | STOP =>
      have h1 : countKind EvKind.STOP (P₀ ++ [(p, EvKind.STOP)]) =
          countLe EvKind.STOP p (P₀ ++ [(p, EvKind.STOP)]) := by
        unfold countKind countLe
        apply List.countP_congr
        intro ev hev
        rcases List.mem_append.mp hev with hev0 | hevl
        · by_cases h2 : ev.2 = EvKind.STOP
          · have hle : ev.1 ≤ p := by
              rcases hP0 ev hev0 with h | ⟨h, -⟩ <;> omega
            simp [h2, hle]
          · simp [h2]
        · have hev' : ev = (p, EvKind.STOP) := by simpa using hevl
          subst hev'
          simp
      have h2 : countLe EvKind.STOP p (P₀ ++ [(p, EvKind.STOP)]) ≤
          countLe EvKind.STOP p E := by
        unfold countLe
        exact hsub.countP_le _
      have h3 := hpos p
      have h4 : countLe EvKind.START p E =
          countLe EvKind.START p (P₀ ++ [(p, EvKind.STOP)]) +
            countLe EvKind.START p R := by
        rw [← hR]
        unfold countLe
        rw [List.countP_append]
      have h5 : countLe EvKind.START p R = 0 := by
        unfold countLe
        rw [List.countP_eq_zero]
        intro b hb hbe
        rw [Bool.and_eq_true, beq_iff_eq, decide_eq_true_eq] at hbe
        rcases hcross b hb with h | ⟨heq, hor⟩
        · omega
        · rcases hor with hk | hk
          · exact EvKind.noConfusion hk
          · rw [hbe.1] at hk
            exact EvKind.noConfusion hk
      have h6 : countLe EvKind.START p (P₀ ++ [(p, EvKind.STOP)]) ≤
          countKind EvKind.START (P₀ ++ [(p, EvKind.STOP)]) := by
        unfold countKind countLe
        apply List.countP_mono_left
        intro ev hev hh
        rw [Bool.and_eq_true] at hh
        exact hh.1
      omega
    | START =>
      have h1 : countKind EvKind.STOP (P₀ ++ [(p, EvKind.START)]) =
          countLe EvKind.STOP (p - 1) (P₀ ++ [(p, EvKind.START)]) := by
        unfold countKind countLe
        apply List.countP_congr
        intro ev hev
        rcases List.mem_append.mp hev with hev0 | hevl
        · by_cases h2 : ev.2 = EvKind.STOP
          · have hle : ev.1 ≤ p - 1 := by
              rcases hP0 ev hev0 with h | ⟨h, hor⟩
              · omega
              · rcases hor with hk | hk
                · rw [h2] at hk
                  exact EvKind.noConfusion hk
                · exact EvKind.noConfusion hk
            simp [h2, hle]
          · simp [h2]
        · have hev' : ev = (p, EvKind.START) := by simpa using hevl
          subst hev'
          simp
      have h2 : countLe EvKind.STOP (p - 1) (P₀ ++ [(p, EvKind.START)]) ≤
          countLe EvKind.STOP (p - 1) E := by
        unfold countLe
        exact hsub.countP_le _
      have h3 := hpos (p - 1)
      have h4 : countLe EvKind.START (p - 1) E =
          countLe EvKind.START (p - 1) (P₀ ++ [(p, EvKind.START)]) +
            countLe EvKind.START (p - 1) R := by
        rw [← hR]
        unfold countLe
        rw [List.countP_append]
      have h5 : countLe EvKind.START (p - 1) R = 0 :=
        countLe_eq_zero_of_lt
          (fun b hb => by rcases hcross b hb with h | ⟨heq, -⟩ <;> omega) _
      have h6 : countLe EvKind.START (p - 1) (P₀ ++ [(p, EvKind.START)]) ≤
          countKind EvKind.START (P₀ ++ [(p, EvKind.START)]) := by
        unfold countKind countLe
        apply List.countP_mono_left
        intro ev hev hh
        rw [Bool.and_eq_true] at hh
        exact hh.1
      omega

/-- `START` events of `intervalEvents` at positions `≤ x` count the
intervals whose low end is `≤ x`. -/
theorem countLe_intervalEvents_START (X : List (Int × Int)) (x : Int) :
    countLe EvKind.START x (intervalEvents X) =
      X.countP (fun c => decide (c.1 ≤ x)) := by
  unfold countLe intervalEvents
  rw [List.countP_append, List.countP_map, List.countP_map]
  have h1 : X.countP ((fun ev : Int × EvKind => ev.2 == EvKind.START && decide (ev.1 ≤ x)) ∘
      (fun coord => (coord.1, EvKind.START))) = X.countP (fun c => decide (c.1 ≤ x)) := by
    apply List.countP_congr
    intro c hc
    simp [Function.comp]
  have h2 : X.countP ((fun ev : Int × EvKind => ev.2 == EvKind.START && decide (ev.1 ≤ x)) ∘
      (fun coord => (coord.2, EvKind.STOP))) = 0 := by
    rw [List.countP_eq_zero]
    intro c hc
    simp [Function.comp]
  rw [h1, h2]
  omega

/-- `STOP` events of `intervalEvents` at positions `≤ x` count the
intervals whose high end is `≤ x`. -/
theorem countLe_intervalEvents_STOP (X : List (Int × Int)) (x : Int) :
    countLe EvKind.STOP x (intervalEvents X) =
      X.countP (fun c => decide (c.2 ≤ x)) := by
  unfold countLe intervalEvents
  rw [List.countP_append, List.countP_map, List.countP_map]
  have h1 : X.countP ((fun ev : Int × EvKind => ev.2 == EvKind.STOP && decide (ev.1 ≤ x)) ∘
      (fun coord => (coord.1, EvKind.START))) = 0 := by
    rw [List.countP_eq_zero]
    intro c hc
    simp [Function.comp]
  have h2 : X.countP ((fun ev : Int × EvKind => ev.2 == EvKind.STOP && decide (ev.1 ≤ x)) ∘
      (fun coord => (coord.2, EvKind.STOP))) = X.countP (fun c => decide (c.2 ≤ x)) := by
    apply List.countP_congr
    intro c hc
    simp [Function.comp]
  rw [h1, h2]
  omega

/-- Each kind of `intervalEvents` has exactly one event per interval. -/
theorem countKind_intervalEvents (k : EvKind) (X : List (Int × Int)) :
    countKind k (intervalEvents X) = X.length := by
  unfold countKind intervalEvents
  rw [List.countP_append, List.countP_map, List.countP_map]
  cases k with
  | START =>
    have h1 : X.countP ((fun ev : Int × EvKind => ev.2 == EvKind.START) ∘
        (fun coord => (coord.1, EvKind.START))) = X.length := by
      rw [List.countP_eq_length]
      intro c hc
      simp [Function.comp]
    have h2 : X.countP ((fun ev : Int × EvKind => ev.2 == EvKind.START) ∘
        (fun coord => (coord.2, EvKind.STOP))) = 0 := by
      rw [List.countP_eq_zero]
      intro c hc
      simp [Function.comp]
    rw [h1, h2]
    omega
  | STOP =>
    have h1 : X.countP ((fun ev : Int × EvKind => ev.2 == EvKind.STOP) ∘
        (fun coord => (coord.1, EvKind.START))) = 0 := by
      rw [List.countP_eq_zero]
      intro c hc
      simp [Function.comp]
    have h2 : X.countP ((fun ev : Int × EvKind => ev.2 == EvKind.STOP) ∘
        (fun coord => (coord.2, EvKind.STOP))) = X.length := by
      rw [List.countP_eq_length]
      intro c hc
      simp [Function.comp]
    rw [h1, h2]
    omega

/-- The sorted event list of well-formed intervals satisfies the sweep
counter invariant from `0`. -/
theorem sorted_merge_events_balanced (X : List (Int × Int))
    (hX : ∀ p ∈ X, p.1 ≤ p.2) :
    balancedFrom 0 (List.insertionSort evLE (intervalEvents X)) := by
  have hperm : List.Perm (List.insertionSort evLE (intervalEvents X)) (intervalEvents X) :=
    List.perm_insertionSort _ _
  have hsort : (List.insertionSort evLE (intervalEvents X)).Sorted evLE :=
    List.sorted_insertionSort _ _
  have hLe : ∀ (k : EvKind) (x : Int),
      countLe k x (List.insertionSort evLE (intervalEvents X)) =
        countLe k x (intervalEvents X) := by
    intro k x
    exact hperm.countP_eq _
  have hpos : ∀ x : Int,
      countLe EvKind.STOP x (List.insertionSort evLE (intervalEvents X)) ≤
        countLe EvKind.START x (List.insertionSort evLE (intervalEvents X)) := by
    intro x
    rw [hLe, hLe, countLe_intervalEvents_START, countLe_intervalEvents_STOP]
    apply List.countP_mono_left
    intro c hc hdec
    rw [decide_eq_true_eq] at hdec ⊢
    have := hX c hc
    omega
  have hKind : ∀ k : EvKind,
      countKind k (List.insertionSort evLE (intervalEvents X)) =
        countKind k (intervalEvents X) := by
    intro k
    exact hperm.countP_eq _
  apply balanced_of_counts _ 0 le_rfl
  · intro P hP
    have := prefix_counts_le _ hsort hpos P hP
    omega
  · rw [hKind, hKind, countKind_intervalEvents, countKind_intervalEvents]
    omega

/-- Counting argument turning the `START`/`STOP` count difference into
interval membership: with well-formed intervals, strictly more low ends
than high ends at positions `≤ x` means some interval covers `x`. -/
theorem countP_lt_iff_covers (X : List (Int × Int)) :
    ∀ x : Int, (∀ p ∈ X, p.1 ≤ p.2) →
    (X.countP (fun c => decide (c.2 ≤ x)) < X.countP (fun c => decide (c.1 ≤ x)) ↔
      covers X x) := by
  induction X with
  | nil =>
    intro x hX
    simp [covers]
  | cons c X' ih =>
    intro x hX
    have hc := hX c (List.mem_cons_self _ _)
    have hX' : ∀ p ∈ X', p.1 ≤ p.2 := fun p hp => hX p (List.mem_cons_of_mem _ hp)
    have hmono : X'.countP (fun c => decide (c.2 ≤ x)) ≤
        X'.countP (fun c => decide (c.1 ≤ x)) := by
      apply List.countP_mono_left
      intro p hp hd
      rw [decide_eq_true_eq] at hd ⊢
      have := hX' p hp
      omega
    rw [covers_cons, List.countP_cons, List.countP_cons]
    by_cases h1 : c.1 ≤ x <;> by_cases h2 : c.2 ≤ x
    · have hmem : ¬ memI x c := by
        unfold memI
        omega
      rw [if_pos (by simp [h1] : decide (c.1 ≤ x) = true),
        if_pos (by simp [h2] : decide (c.2 ≤ x) = true)]
      constructor
      · intro h
        exact Or.inr ((ih x hX').mp (by omega))
      · rintro (h | h)
        · exact absurd h hmem
        · have := (ih x hX').mpr h
          omega
    · have hmem : memI x c := by
        unfold memI
        omega
      rw [if_pos (by simp [h1] : decide (c.1 ≤ x) = true),
        if_neg (by simp [h2] : ¬ decide (c.2 ≤ x) = true)]
      constructor
      · intro _
        exact Or.inl hmem
      · intro _
        omega
    · exact absurd (by omega : c.1 ≤ x) h1
    · have hmem : ¬ memI x c := by
        unfold memI
        omega
      rw [if_neg (by simp [h1] : ¬ decide (c.1 ≤ x) = true),
        if_neg (by simp [h2] : ¬ decide (c.2 ≤ x) = true)]
      constructor
      · intro h
        exact Or.inr ((ih x hX').mp (by omega))
      · rintro (h | h)
        · exact absurd h hmem
        · have := (ih x hX').mpr h
          omega

/-- The union of `merge_intervals X` equals the union of `X` for
well-formed intervals. -/
theorem merge_covers (X : List (Int × Int)) (hX : ∀ p ∈ X, p.1 ≤ p.2) :
    ∀ x : Int, covers (merge_intervals X) x ↔ covers X x := by
  intro x
  unfold merge_intervals
  rw [sweep_mem _ 0 0 le_rfl (List.sorted_insertionSort _ _)
    (sorted_merge_events_balanced X hX) (fun h => absurd h (by omega)) x]
  have hLe : ∀ k : EvKind,
      countLe k x (List.insertionSort evLE (intervalEvents X)) =
        countLe k x (intervalEvents X) :=
    fun k => (List.perm_insertionSort _ _).countP_eq _
  rw [hLe, hLe, countLe_intervalEvents_START, countLe_intervalEvents_STOP]
  constructor
  · rintro ⟨h, -⟩
    exact (countP_lt_iff_covers X x hX).mp (by omega)
  · intro h
    have := (countP_lt_iff_covers X x hX).mpr h
    exact ⟨by omega, Or.inl rfl⟩

/-- `merge_intervals` emits a separated chain for well-formed input. -/
theorem merge_separated (X : List (Int × Int)) (hX : ∀ p ∈ X, p.1 ≤ p.2) :
    Separated (merge_intervals X) := by
  unfold merge_intervals
  obtain ⟨hmem, hchain⟩ := sweep_sep _ 0 0 le_rfl (List.sorted_insertionSort _ _)
    (sorted_merge_events_balanced X hX) (fun h => absurd h (by omega))
  exact ⟨fun p hp => (hmem p hp).1, hchain⟩

/-- Every merged interval starts at the low end of some input interval and
stops at the high end of some input interval. -/
theorem merge_bounds (X : List (Int × Int)) (hX : ∀ p ∈ X, p.1 ≤ p.2) :
    ∀ g ∈ merge_intervals X, (∃ q ∈ X, g.1 = q.1) ∧ (∃ q ∈ X, g.2 = q.2) := by
  unfold merge_intervals
  obtain ⟨hmem, -⟩ := sweep_sep _ 0 0 le_rfl (List.sorted_insertionSort _ _)
    (sorted_merge_events_balanced X hX) (fun h => absurd h (by omega))
  intro g hg
  obtain ⟨-, -, hmb, hstop⟩ := hmem g hg
  constructor
  · rcases hmb with hmb | ⟨hfalse, -⟩
    · have hmb' : (g.1, EvKind.START) ∈ intervalEvents X :=
        ((List.perm_insertionSort _ _).mem_iff).mp hmb
      unfold intervalEvents at hmb'
      rcases List.mem_append.mp hmb' with h | h
      · rcases List.mem_map.mp h with ⟨q, hq, he⟩
        refine ⟨q, hq, ?_⟩
        have := congrArg Prod.fst he
        simpa using this.symm
      · rcases List.mem_map.mp h with ⟨q, hq, he⟩
        have := congrArg Prod.snd he
        simp at this
    · exact absurd hfalse (by omega)
  · have hstop' : (g.2, EvKind.STOP) ∈ intervalEvents X :=
      ((List.perm_insertionSort _ _).mem_iff).mp hstop
    unfold intervalEvents at hstop'
    rcases List.mem_append.mp hstop' with h | h
    · rcases List.mem_map.mp h with ⟨q, hq, he⟩
      have := congrArg Prod.snd he
      simp at this
    · rcases List.mem_map.mp h with ⟨q, hq, he⟩
      refine ⟨q, hq, ?_⟩
      have := congrArg Prod.fst he
      simpa using this.symm

/-- `chainEvents` is a permutation of `intervalEvents`. -/
theorem chainEvents_perm (l : List (Int × Int)) :
    List.Perm (chainEvents l) (intervalEvents l) := by
  induction l with
  | nil => simp [chainEvents, intervalEvents]
  | cons c rest ih =>
    obtain ⟨s, e⟩ := c
    unfold chainEvents intervalEvents
    simp only [List.map_cons, List.cons_append]
    refine List.Perm.cons _ ?_
    refine List.Perm.trans (List.Perm.cons _ ih) ?_
    unfold intervalEvents
    exact List.perm_middle.symm

/-- Every event position of `chainEvents l` is an endpoint of some
interval of `l`. -/
theorem chainEvents_pos (l : List (Int × Int)) :
    ∀ ev ∈ chainEvents l, ∃ q ∈ l, ev.1 = q.1 ∨ ev.1 = q.2 := by
  induction l with
  | nil =>
    intro ev hev
    simp [chainEvents] at hev
  | cons c rest ih =>
    obtain ⟨s, e⟩ := c
    intro ev hev
    rw [chainEvents] at hev
    rcases List.mem_cons.mp hev with rfl | hev'
    · exact ⟨(s, e), by simp, Or.inl rfl⟩
    · rcases List.mem_cons.mp hev' with rfl | hev''
      · exact ⟨(s, e), by simp, Or.inr rfl⟩
      · obtain ⟨q, hq, h⟩ := ih ev hev''
        exact ⟨q, List.mem_cons_of_mem _ hq, h⟩

/-- In a separated chain, the first interval ends strictly before every
later interval starts. -/
theorem sep_head_lt (rest : List (Int × Int)) :
    ∀ s e : Int, Separated ((s, e) :: rest) → ∀ q ∈ rest, e < q.1 := by
  induction rest with
  | nil =>
    intro s e hsep q hq
    cases hq
  | cons c rest' ih =>
    intro s e hsep q hq
    have h1 : e < c.1 := (List.chain'_cons.mp hsep.2).1
    have hc12 : c.1 ≤ c.2 := hsep.1 c (by simp)
    have hsep' : Separated (c :: rest') :=
      ⟨fun p hp => hsep.1 p (List.mem_cons_of_mem _ hp), (List.chain'_cons.mp hsep.2).2⟩
    rcases List.mem_cons.mp hq with rfl | hq'
    · exact h1
    · have := ih c.1 c.2 hsep' q hq'
      omega

/-- A separated chain's tail is separated. -/
theorem Separated.tail {c : Int × Int} {rest : List (Int × Int)}
    (h : Separated (c :: rest)) : Separated rest :=
  ⟨fun p hp => h.1 p (List.mem_cons_of_mem _ hp), h.2.tail⟩

/-- `chainEvents` of a separated chain is sorted. -/
theorem chainEvents_sorted (l : List (Int × Int)) :
    Separated l → (chainEvents l).Sorted evLE := by
  induction l with
  | nil =>
    intro _
    simp [chainEvents]
  | cons c rest ih =>
    intro hsep
    obtain ⟨s, e⟩ := c
    have hse : s ≤ e := hsep.1 (s, e) (List.mem_cons_self _ _)
    have hsep' : Separated rest := hsep.tail
    have hlt : ∀ q ∈ rest, e < q.1 := sep_head_lt rest s e hsep
    have hposs : ∀ ev ∈ chainEvents rest, e < ev.1 := by
      intro ev hev
      obtain ⟨q, hq, hcase⟩ := chainEvents_pos rest ev hev
      have h1 := hlt q hq
      have h2 := hsep'.1 q hq
      rcases hcase with h | h <;> omega
    rw [chainEvents, List.sorted_cons]
    constructor
    · intro b hb
      rcases List.mem_cons.mp hb with rfl | hb'
      · by_cases hse' : s = e
        · exact Or.inr ⟨hse', Or.inl rfl⟩
        · exact Or.inl (by omega)
      · have := hposs b hb'
        exact Or.inl (by omega)
    · rw [List.sorted_cons]
      exact ⟨fun b hb => Or.inl (hposs b hb), ih hsep'⟩

/-- Sweeping `chainEvents` recovers the chain itself. -/
theorem sweep_chainEvents (l : List (Int × Int)) :
    ∀ st : Int, sweep (chainEvents l) 0 st = l := by
  induction l with
  | nil =>
    intro st
    rfl
  | cons c rest ih =>
    obtain ⟨s, e⟩ := c
    intro st
    rw [chainEvents]
    rw [show sweep ((s, EvKind.START) :: (e, EvKind.STOP) :: chainEvents rest) 0 st =
        (s, e) :: sweep (chainEvents rest) 0 s from by norm_num [sweep]]
    rw [ih s]

/-- `merge_intervals` is the identity on separated chains. -/
theorem merge_of_separated (l : List (Int × Int)) (hsep : Separated l) :
    merge_intervals l = l := by
  unfold merge_intervals
  have hsorteq : List.insertionSort evLE (intervalEvents l) = chainEvents l :=
    List.eq_of_perm_of_sorted
      ((List.perm_insertionSort _ _).trans (chainEvents_perm l).symm)
      (List.sorted_insertionSort _ _) (chainEvents_sorted l hsep)
  rw [hsorteq, sweep_chainEvents]

/-- Claim C2 (amended): `merge_intervals` is idempotent on every collection
of well-formed intervals, and it is the identity on every *separated*
sorted input (each interval ending strictly before the next starts);
merely non-overlapping half-open inputs are not always fixed, since
touching intervals are merged. -/
theorem C2_merge_intervals_idempotent (X : List (Int × Int))
    (hX : ∀ p ∈ X, p.1 ≤ p.2) :
    merge_intervals (merge_intervals X) = merge_intervals X ∧
    (Separated X → merge_intervals X = X) :=
  ⟨merge_of_separated _ (merge_separated X hX), fun hsep => merge_of_separated _ hsep⟩

/-- Claim C2, counterexample: `[(0,1), (1,2)]` is sorted and its half-open
intervals are disjoint, yet `merge_intervals` replaces it by `[(0,2)]`
because touching intervals merge (`'START' < 'STOP'` tie-break), so merge
is not the identity on all sorted non-overlapping inputs. -/
theorem C2_counterexample :
    (∀ x : Int, ¬ (memI x (0, 1) ∧ memI x (1, 2))) ∧
    merge_intervals [((0 : Int), (1 : Int)), (1, 2)] = [(0, 2)] ∧
    merge_intervals [((0 : Int), (1 : Int)), (1, 2)] ≠ [(0, 1), (1, 2)] := by
  refine ⟨?_, by decide, by decide⟩
  intro x hx
  unfold memI at hx
  omega

/-- Witness for claim C2's amended theorem at a concrete interval list. -/
theorem C2_witness :
    (∀ p ∈ [((0 : Int), (5 : Int)), (3, 8), (10, 12)], p.1 ≤ p.2) ∧
    (merge_intervals (merge_intervals [((0 : Int), (5 : Int)), (3, 8), (10, 12)]) =
        merge_intervals [((0 : Int), (5 : Int)), (3, 8), (10, 12)] ∧
      (Separated [((0 : Int), (5 : Int)), (3, 8), (10, 12)] →
        merge_intervals [((0 : Int), (5 : Int)), (3, 8), (10, 12)] =
          [((0 : Int), (5 : Int)), (3, 8), (10, 12)])) :=
  ⟨by decide, C2_merge_intervals_idempotent [((0 : Int), (5 : Int)), (3, 8), (10, 12)]
    (by decide)⟩

/-- Union of the gaps produced by the `complement_intervals` loop: exactly
the points of `[prev, L)` not covered by the (separated, bounded) interval
chain. -/
theorem compGo_covers (l : List (Int × Int)) :
    ∀ L prev : Int, Separated l → (∀ p ∈ l, prev ≤ p.1) → (∀ p ∈ l, p.2 ≤ L) →
    ∀ x : Int, covers (complementGo L prev l) x ↔
      (prev ≤ x ∧ x < L ∧ ¬ covers l x) := by
  induction l with
  | nil =>
    intro L prev _ _ _ x
    rw [complementGo]
    by_cases h : prev ≠ L
    · rw [if_pos h]
      simp [covers, memI]
    · rw [if_neg h]
      push_neg at h
      subst h
      simp [covers, memI]
  | cons c rest ih =>
    obtain ⟨s, e⟩ := c
    intro L prev hsep hlb hub x
    have hse : s ≤ e := hsep.1 (s, e) (List.mem_cons_self _ _)
    have hps : prev ≤ s := hlb (s, e) (List.mem_cons_self _ _)
    have heL : e ≤ L := hub (s, e) (List.mem_cons_self _ _)
    have hsep' : Separated rest := hsep.tail
    have hlt : ∀ q ∈ rest, e < q.1 := sep_head_lt rest s e hsep
    have hcr : covers rest x → e < x := by
      rintro ⟨p, hp, h1, h2⟩
      have := hlt p hp
      omega
    rw [complementGo]
    have hiff := ih L e hsep' (fun p hp => le_of_lt (hlt p hp))
      (fun p hp => hub p (List.mem_cons_of_mem _ hp)) x
    have hcapp : covers ((if prev ≠ s then [(prev, s)] else []) ++
        complementGo L e rest) x ↔
        ((prev ≤ x ∧ x < s) ∨ covers (complementGo L e rest) x) := by
      by_cases h : prev ≠ s
      · rw [if_pos h]
        simp only [List.singleton_append]
        rw [covers_cons]
        unfold memI
        exact Iff.rfl
      · rw [if_neg h]
        push_neg at h
        subst h
        simp only [List.nil_append]
        constructor
        · intro hz
          exact Or.inr hz
        · rintro (⟨h1, h2⟩ | hz)
          · omega
          · exact hz
    rw [hcapp, hiff]
    rw [show covers ((s, e) :: rest) x ↔ memI x (s, e) ∨ covers rest x from covers_cons]
    unfold memI
    constructor
    · rintro (⟨h1, h2⟩ | ⟨h1, h2, h3⟩)
      · refine ⟨h1, by omega, ?_⟩
        rintro (⟨hm1, hm2⟩ | hcov)
        · omega
        · have := hcr hcov
          omega
      · refine ⟨by omega, h2, ?_⟩
        rintro (⟨hm1, hm2⟩ | hcov)
        · omega
        · exact h3 hcov
    · rintro ⟨h1, h2, h3⟩
      by_cases hxs : x < s
      · exact Or.inl ⟨h1, hxs⟩
      · right
        have hxe : e ≤ x := by
          by_contra hxe
          exact h3 (Or.inl ⟨by omega, by omega⟩)
        exact ⟨hxe, h2, fun hcov => h3 (Or.inr hcov)⟩

/-- Every gap produced by the `complement_intervals` loop starts at or
after `prev`. -/
theorem compGo_lb (l : List (Int × Int)) :
    ∀ L prev : Int, Separated l → (∀ p ∈ l, prev ≤ p.1) →
    ∀ g ∈ complementGo L prev l, prev ≤ g.1 := by
  induction l with
  | nil =>
    intro L prev _ _ g hg
    rw [complementGo] at hg
    by_cases h : prev ≠ L
    · rw [if_pos h] at hg
      rcases List.mem_cons.mp hg with rfl | h0
      · exact le_rfl
      · cases h0
    · rw [if_neg h] at hg
      cases hg
  | cons c rest ih =>
    obtain ⟨s, e⟩ := c
    intro L prev hsep hlb g hg
    have hps : prev ≤ s := hlb (s, e) (List.mem_cons_self _ _)
    have hse : s ≤ e := hsep.1 (s, e) (List.mem_cons_self _ _)
    have hlt := sep_head_lt rest s e hsep
    rw [complementGo] at hg
    rcases List.mem_append.mp hg with hga | hgr
    · by_cases h : prev ≠ s
      · rw [if_pos h] at hga
        rcases List.mem_cons.mp hga with rfl | h0
        · exact le_rfl
        · cases h0
      · rw [if_neg h] at hga
        cases hga
    · have := ih L e hsep.tail (fun p hp => le_of_lt (hlt p hp)) g hgr
      omega

/-- The gaps produced by the `complement_intervals` loop are pairwise
disjoint. -/
theorem compGo_pairwise (l : List (Int × Int)) :
    ∀ L prev : Int, Separated l → (∀ p ∈ l, prev ≤ p.1) →
    List.Pairwise (fun g h => ∀ x : Int, ¬ (memI x g ∧ memI x h))
      (complementGo L prev l) := by
  induction l with
  | nil =>
    intro L prev _ _
    rw [complementGo]
    by_cases h : prev ≠ L
    · rw [if_pos h]
      simp
    · rw [if_neg h]
      simp
  | cons c rest ih =>
    obtain ⟨s, e⟩ := c
    intro L prev hsep hlb
    have hps : prev ≤ s := hlb (s, e) (List.mem_cons_self _ _)
    have hse : s ≤ e := hsep.1 (s, e) (List.mem_cons_self _ _)
    have hlt := sep_head_lt rest s e hsep
    have hrest := ih L e hsep.tail (fun p hp => le_of_lt (hlt p hp))
    have hlbrest := compGo_lb rest L e hsep.tail (fun p hp => le_of_lt (hlt p hp))
    rw [complementGo, List.pairwise_append]
    refine ⟨?_, hrest, ?_⟩
    · by_cases h : prev ≠ s
      · rw [if_pos h]
        simp
      · rw [if_neg h]
        simp
    · intro g hga h' hgr x hx
      have hg' : g = (prev, s) := by
        by_cases h : prev ≠ s
        · rw [if_pos h] at hga
          rcases List.mem_cons.mp hga with rfl | h0
          · rfl
          · cases h0
        · rw [if_neg h] at hga
          cases hga
      subst hg'
      have hlb' := hlbrest h' hgr
      unfold memI at hx
      omega

/-- Claim C5: for intervals inside `[0, L)`, the complement of the merged
intervals together with the original intervals covers exactly `[0, L)`,
and the complement's gaps overlap neither the input intervals nor each
other. -/
theorem C5_complement_partition (X : List (Int × Int)) (L : Int)
    (hX : ∀ p ∈ X, 0 ≤ p.1 ∧ p.1 ≤ p.2 ∧ p.2 ≤ L) :
    (∀ x : Int,
      (covers (complement_intervals (merge_intervals X) L) x ∨ covers X x) ↔
        (0 ≤ x ∧ x < L)) ∧
    (∀ g ∈ complement_intervals (merge_intervals X) L, ∀ p ∈ X, ∀ x : Int,
      ¬ (memI x g ∧ memI x p)) ∧
    List.Pairwise (fun g h => ∀ x : Int, ¬ (memI x g ∧ memI x h))
      (complement_intervals (merge_intervals X) L) := by
  have hX' : ∀ p ∈ X, p.1 ≤ p.2 := fun p hp => (hX p hp).2.1
  have hsepM : Separated (merge_intervals X) := merge_separated X hX'
  have hlbM : ∀ p ∈ merge_intervals X, (0 : Int) ≤ p.1 := by
    intro p hp
    obtain ⟨⟨q, hq, he⟩, -⟩ := merge_bounds X hX' p hp
    have := (hX q hq).1
    omega
  have hubM : ∀ p ∈ merge_intervals X, p.2 ≤ L := by
    intro p hp
    obtain ⟨-, ⟨q, hq, he⟩⟩ := merge_bounds X hX' p hp
    have := (hX q hq).2.2
    omega
  have hcovM := merge_covers X hX'
  have hcomp := compGo_covers (merge_intervals X) L 0 hsepM hlbM hubM
  have hbound : ∀ x : Int, covers X x → 0 ≤ x ∧ x < L := by
    rintro x ⟨p, hp, h1, h2⟩
    have := hX p hp
    constructor <;> omega
  refine ⟨?_, ?_, ?_⟩
  · intro x
    unfold complement_intervals
    rw [hcomp x, hcovM x]
    constructor
    · rintro (⟨h1, h2, -⟩ | hc)
      · exact ⟨h1, h2⟩
      · exact hbound x hc
    · rintro ⟨h1, h2⟩
      by_cases hcx : covers X x
      · exact Or.inr hcx
      · exact Or.inl ⟨h1, h2, hcx⟩
  · intro g hg p hp x hx
    have hcov : covers (complementGo L 0 (merge_intervals X)) x := ⟨g, hg, hx.1⟩
    rw [hcomp x] at hcov
    have hcx : covers X x := ⟨p, hp, hx.2⟩
    rw [← hcovM x] at hcx
    exact hcov.2.2 hcx
  · exact compGo_pairwise (merge_intervals X) L 0 hsepM hlbM

/-- Witness for claim C5 at `X = [(1,3), (5,7)]`, `L = 10`. -/
theorem C5_witness :
    (∀ p ∈ [((1 : Int), (3 : Int)), (5, 7)], 0 ≤ p.1 ∧ p.1 ≤ p.2 ∧ p.2 ≤ 10) ∧
    ((∀ x : Int,
      (covers (complement_intervals (merge_intervals [((1 : Int), (3 : Int)), (5, 7)]) 10) x ∨
          covers [((1 : Int), (3 : Int)), (5, 7)] x) ↔
        (0 ≤ x ∧ x < 10)) ∧
    (∀ g ∈ complement_intervals (merge_intervals [((1 : Int), (3 : Int)), (5, 7)]) 10,
      ∀ p ∈ [((1 : Int), (3 : Int)), (5, 7)], ∀ x : Int,
      ¬ (memI x g ∧ memI x p)) ∧
    List.Pairwise (fun g h => ∀ x : Int, ¬ (memI x g ∧ memI x h))
      (complement_intervals (merge_intervals [((1 : Int), (3 : Int)), (5, 7)]) 10)) :=
  ⟨by decide, C5_complement_partition [((1 : Int), (3 : Int)), (5, 7)] 10 (by decide)⟩
